import Mathlib

set_option maxRecDepth 100000

/-!
Shallow embedding of the `imagelab` receive pipeline (server/app) and proofs
about it.  Bytes are modelled as `Nat` (Python `bytes` elements are `0..255`;
bounds appear as hypotheses where they matter).  Fallible Python code
(`raise ValueError` / `raise IndexError`) is modelled with `Except`.
-/

namespace ImageLab

/-- fec.py `_parity`: XOR of the low bits of the arguments (varargs become a list). -/
def parityFold (bits : List Nat) : Nat :=
  bits.foldl (fun acc b => acc ^^^ (b % 2)) 0

/-- fec.py `_bit`: `(value >> index) & 1`. -/
def bitAt (value index : Nat) : Nat :=
  (value >>> index) % 2

namespace HammingCodec

/-- fec.py `HammingCodec._encode_nibble`: build the 7-bit codeword
`p1 p2 d3 p3 d2 d1 d0` (MSB first) from one nibble. -/
def encodeNibble (nibble : Nat) : Nat :=
  let d3 := bitAt nibble 3
  let d2 := bitAt nibble 2
  let d1 := bitAt nibble 1
  let d0 := bitAt nibble 0
  let p1 := parityFold [d3, d2, d0]
  let p2 := parityFold [d3, d1, d0]
  let p3 := parityFold [d2, d1, d0]
  (p1 <<< 6) ||| (p2 <<< 5) ||| (d3 <<< 4) ||| (p3 <<< 3) ||| (d2 <<< 2) ||| (d1 <<< 1) ||| d0

/-- fec.py `HammingCodec._decode_codeword`: returns `(nibble, corrected, double_error)`.
The syndrome is assembled as `(s1<<2)|(s2<<1)|s3` and `pos = syndrome - 1` indexes the
bit list from the high end, exactly as in the source. -/
def decodeCodeword (code : Nat) : Nat × Nat × Nat :=
  let bits := (List.range 7).map (fun i => (code >>> (6 - i)) % 2)
  let p1 := bits.getD 0 0
  let p2 := bits.getD 1 0
  let d3 := bits.getD 2 0
  let p3 := bits.getD 3 0
  let d2 := bits.getD 4 0
  let d1 := bits.getD 5 0
  let d0 := bits.getD 6 0
  let s1 := parityFold [p1, d3, d2, d0]
  let s2 := parityFold [p2, d3, d1, d0]
  let s3 := parityFold [p3, d2, d1, d0]
  let syndrome := (s1 <<< 2) ||| (s2 <<< 1) ||| s3
  if syndrome ≠ 0 then
    let pos := syndrome - 1
    if pos < 7 then
      let bits2 := bits.set pos ((bits.getD pos 0) ^^^ 1)
      let e3 := bits2.getD 2 0
      let e2 := bits2.getD 4 0
      let e1 := bits2.getD 5 0
      let e0 := bits2.getD 6 0
      ((e3 <<< 3) ||| (e2 <<< 2) ||| (e1 <<< 1) ||| e0, 1, 0)
    else
      ((d3 <<< 3) ||| (d2 <<< 2) ||| (d1 <<< 1) ||| d0, 0, 1)
  else
    ((d3 <<< 3) ||| (d2 <<< 2) ||| (d1 <<< 1) ||| d0, 0, 0)

/-- fec.py `HammingCodec.encode`: per input byte, codeword of the high nibble
then of the low nibble. -/
def encode : List Nat → List Nat
  | [] => []
  | byte :: rest =>
      encodeNibble ((byte >>> 4) % 16) :: encodeNibble (byte % 16) :: encode rest

/-- Error raised by the Hamming decoder (ValueError on odd input length;
the spec maps it to `INPUT_MALFORMED`). -/
inductive Error where
  | oddLength
deriving DecidableEq

/-- Loop body of fec.py `HammingCodec.decode`: fold codeword pairs into
`(decoded bytes, corrected, double_error)`. -/
def decodePairs : List Nat → List Nat × Nat × Nat
  | highCode :: lowCode :: rest =>
      let h := decodeCodeword highCode
      let l := decodeCodeword lowCode
      let r := decodePairs rest
      (((h.1 <<< 4) ||| l.1) :: r.1, h.2.1 + l.2.1 + r.2.1, h.2.2 + l.2.2 + r.2.2)
  | _ => ([], 0, 0)

/-- fec.py `HammingCodec.decode`. -/
def decode (payload : List Nat) : Except Error (List Nat × Nat × Nat) :=
  if payload.length % 2 ≠ 0 then .error .oddLength
  else .ok (decodePairs payload)

end HammingCodec

/-- A clean codeword decodes back to its nibble with no reported errors. -/
theorem decodeCodeword_encodeNibble :
    ∀ x < 16, HammingCodec.decodeCodeword (HammingCodec.encodeNibble x) = (x, 0, 0) := by
  decide

/-- Splitting a byte into nibbles and re-joining is the identity below 256. -/
theorem nibble_recombine :
    ∀ b < 256, ((((b >>> 4) % 16) <<< 4) ||| (b % 16)) = b := by
  decide

/-- `decodePairs` inverts `encode` on byte lists, reporting zero corrections. -/
theorem decodePairs_encode :
    ∀ payload : List Nat, (∀ b ∈ payload, b < 256) →
      HammingCodec.decodePairs (HammingCodec.encode payload) = (payload, 0, 0)
  | [], _ => rfl
  | byte :: rest, h => by
      have hb : byte < 256 := h byte (List.mem_cons_self _ _)
      have hrest := decodePairs_encode rest (fun b hbm => h b (List.mem_cons_of_mem _ hbm))
      have hhi : (byte >>> 4) % 16 < 16 := Nat.mod_lt _ (by decide)
      have hlo : byte % 16 < 16 := Nat.mod_lt _ (by decide)
      simp only [HammingCodec.encode, HammingCodec.decodePairs,
        decodeCodeword_encodeNibble _ hhi, decodeCodeword_encodeNibble _ hlo, hrest,
        nibble_recombine byte hb]

/-- Encoding doubles the length. -/
theorem encode_length :
    ∀ payload : List Nat, (HammingCodec.encode payload).length = 2 * payload.length
  | [] => rfl
  | _ :: rest => by
      simp only [HammingCodec.encode, List.length_cons, encode_length rest]
      omega

/-- C7: For every byte string `b`, `HammingCodec.encode b` has length exactly
`2·len b`, decoding the clean encoding returns `b` with metrics
`corrected = 0, double_error = 0`, and decoding any odd-length stream fails
with the `INPUT_MALFORMED` (odd length) error. -/
theorem hamming_clean_roundtrip (payload : List Nat) (h : ∀ b ∈ payload, b < 256) :
    (HammingCodec.encode payload).length = 2 * payload.length
    ∧ HammingCodec.decode (HammingCodec.encode payload) = .ok (payload, 0, 0)
    ∧ ∀ q : List Nat, q.length % 2 = 1 → HammingCodec.decode q = .error .oddLength := by
  refine ⟨encode_length payload, ?_, ?_⟩
  · unfold HammingCodec.decode
    rw [encode_length payload]
    simp [Nat.mul_mod_right, decodePairs_encode payload h]
  · intro q hq
    unfold HammingCodec.decode
    rw [hq]
    simp

/-- Closed witness for `hamming_clean_roundtrip`. -/
theorem hamming_clean_roundtrip_witness :
    (HammingCodec.encode [175, 16]).length = 2 * 2
    ∧ HammingCodec.decode (HammingCodec.encode [175, 16]) = .ok ([175, 16], 0, 0)
    ∧ ∀ q : List Nat, q.length % 2 = 1 → HammingCodec.decode q = .error .oddLength :=
  hamming_clean_roundtrip [175, 16] (by decide)

/-- C1: flipping the single codeword bit at position 3 (the data bit `d3`,
byte mask `0b00010000`) of the encoding of `b"\x00"` makes the decoder
mis-correct: it returns `0xA0` with `corrected = 1, double_error = 0`
instead of restoring the original byte.  (The syndrome is assembled in the
wrong bit order, so errors on positions 3 and 6 point the correction at
positions 6 and 3 respectively.) -/
theorem hamming_single_bit_miscorrection :
    HammingCodec.encode [0] = [0, 0]
    ∧ HammingCodec.decode [0 ^^^ 16, 0] = .ok ([160], 1, 0)
    ∧ (160 : Nat) ≠ 0 := by
  refine ⟨rfl, rfl, by decide⟩

/-- C2: encoding `b"\x7A"` gives `[0x0F, 0x5A]`; XOR-ing the first encoded
byte with `0b00000101` (two flipped bits) and decoding yields `[0x2A]` with
`corrected = 1` and `double_error = 0` — the double error is *not* reported
(`pos = syndrome - 1` is always `< 7`, so the `double_error` branch of
`_decode_codeword` is unreachable), contradicting the repository's own test
`test_hamming_double_error_detection`. -/
theorem hamming_double_error_not_detected :
    HammingCodec.encode [122] = [15, 90]
    ∧ HammingCodec.decode [15 ^^^ 5, 90] = .ok ([42], 1, 0)
    ∧ (42 : Nat) ≠ 122 := by
  refine ⟨rfl, rfl, by decide⟩

/-- Clearing the MSB of a byte does not change how a codeword decodes:
the decoder only ever reads bits 0–6. -/
theorem decodeCodeword_msb :
    ∀ c < 256, HammingCodec.decodeCodeword c = HammingCodec.decodeCodeword (c &&& 127) := by
  decide

/-- `decodePairs` is insensitive to the MSB of every byte. -/
theorem decodePairs_msb :
    ∀ x : List Nat, (∀ b ∈ x, b < 256) →
      HammingCodec.decodePairs x = HammingCodec.decodePairs (x.map (fun b => b &&& 127))
  | [], _ => rfl
  | [a], _ => rfl
  | a :: b :: rest, h => by
      have ha : a < 256 := h a (List.mem_cons_self _ _)
      have hb : b < 256 := h b (List.mem_cons_of_mem _ (List.mem_cons_self _ _))
      have hrest := decodePairs_msb rest
        (fun c hc => h c (List.mem_cons_of_mem _ (List.mem_cons_of_mem _ hc)))
      simp only [List.map_cons, HammingCodec.decodePairs, hrest,
        ← decodeCodeword_msb a ha, ← decodeCodeword_msb b hb]

/-- C10: for every even-length byte string, decoding is unchanged when bit 7
(the MSB) of every encoded byte is cleared: the decoder never depends on it. -/
theorem hamming_decode_ignores_msb (x : List Nat) (h : ∀ b ∈ x, b < 256)
    (h2 : x.length % 2 = 0) :
    HammingCodec.decode x = HammingCodec.decode (x.map (fun b => b &&& 127)) := by
  unfold HammingCodec.decode
  rw [List.length_map, decodePairs_msb x h]

/-- Closed witness for `hamming_decode_ignores_msb`. -/
theorem hamming_decode_ignores_msb_witness :
    HammingCodec.decode [255, 7] = HammingCodec.decode ([255, 7].map (fun b => b &&& 127)) :=
  hamming_decode_ignores_msb [255, 7] (by decide) (by decide)

/-- chunking.py `ChunkEnvelope` (payload bytes as `List Nat`, the free-form
metadata mapping as an association list). -/
structure ChunkEnvelope where
  chunk_id : String
  sequence : Nat
  payload : List Nat
  is_parity : Bool := false
  fec_index : Option Nat := none
  total_chunks : Option Nat := none
  metadata : List (String × String) := []
deriving DecidableEq

/-- Model of Python dict assignment `m[k] = v`: replace in place when the key
exists (a Python dict keeps the key at its original position), else append. -/
def dictSet {α : Type} : List (Nat × α) → Nat → α → List (Nat × α)
  | [], k, v => [(k, v)]
  | (k0, v0) :: rest, k, v =>
      if k0 = k then (k, v) :: rest else (k0, v0) :: dictSet rest k v

/-- Model of Python dict lookup. -/
def dictFind {α : Type} : List (Nat × α) → Nat → Option α
  | [], _ => none
  | (k0, v0) :: rest, k => if k0 = k then some v0 else dictFind rest k

/-- chunking.py `ChunkAssembler` state: `_chunks`, `_parity`, `_expected`. -/
structure ChunkAssembler where
  chunk_id : String
  chunks : List (Nat × ChunkEnvelope)
  parity : List (Nat × ChunkEnvelope)
  expected : Option Nat
deriving DecidableEq

/-- `ChunkAssembler.__init__`. -/
def ChunkAssembler.init (cid : String) : ChunkAssembler :=
  { chunk_id := cid, chunks := [], parity := [], expected := none }

/-- ValueError raised by `ChunkAssembler.add` on a chunk-id mismatch. -/
inductive ChunkError where
  | idMismatch
deriving DecidableEq

/-- chunking.py `ChunkAssembler.add`: update `expected` from `total_chunks`
when present, then store the envelope in the parity dict iff `is_parity`,
else in the data dict. -/
def ChunkAssembler.add (asm : ChunkAssembler) (env : ChunkEnvelope) :
    Except ChunkError ChunkAssembler :=
  if env.chunk_id ≠ asm.chunk_id then .error .idMismatch
  else
    let expected1 := match env.total_chunks with
      | some t => some t
      | none => asm.expected
    if env.is_parity then
      .ok { asm with expected := expected1,
                     parity := dictSet asm.parity env.sequence env }
    else
      .ok { asm with expected := expected1,
                     chunks := dictSet asm.chunks env.sequence env }

/-- A sequence of `add` calls, stopping at the first error. -/
def ChunkAssembler.addList (asm : ChunkAssembler) : List ChunkEnvelope →
    Except ChunkError ChunkAssembler
  | [] => .ok asm
  | e :: rest =>
      match asm.add e with
      | .ok a => a.addList rest
      | .error err => .error err

/-- A key is present after `dictSet` iff it was present before or is the set key. -/
theorem dictFind_dictSet_isSome {α : Type} :
    ∀ (m : List (Nat × α)) (k : Nat) (v : α) (s : Nat),
      (dictFind (dictSet m k v) s).isSome = true ↔
        ((dictFind m s).isSome = true ∨ s = k)
  | [], k, v, s => by
      simp only [dictSet, dictFind]
      by_cases h : k = s
      · subst h; simp
      · simp [h, Ne.symm h]
  | (k0, v0) :: rest, k, v, s => by
      simp only [dictSet]
      by_cases hk : k0 = k
      · subst hk
        simp only [if_pos rfl, dictFind]
        by_cases hs : k0 = s
        · subst hs; simp
        · simp [hs, Ne.symm hs]
      · simp only [if_neg hk, dictFind]
        by_cases hs : k0 = s
        · subst hs; simp
        · simp [hs, dictFind_dictSet_isSome rest k v s]

/-- The data envelope used by the C5 counterexample. -/
def envData3 : ChunkEnvelope := { chunk_id := "f", sequence := 3, payload := [1] }

/-- The parity envelope used by the C5 counterexample. -/
def envParity3 : ChunkEnvelope :=
  { chunk_id := "f", sequence := 3, payload := [2], is_parity := true }

/-- C5 counterexample: adding a data envelope and then a parity envelope with
the same sequence number `3` leaves `3` as a key of *both* maps, refuting the
claimed disjointness invariant. -/
theorem assembler_shared_key_counterexample :
    (ChunkAssembler.init "f").addList [envData3, envParity3]
      = .ok { chunk_id := "f", chunks := [(3, envData3)], parity := [(3, envParity3)],
              expected := none }
    ∧ (dictFind [(3, envData3)] 3).isSome = true
    ∧ (dictFind [(3, envParity3)] 3).isSome = true :=
  ⟨rfl, rfl, rfl⟩

/-- Auxiliary invariant for `addList` from an arbitrary assembler state. -/
theorem addList_key_partition :
    ∀ (envs : List ChunkEnvelope) (asm : ChunkAssembler) (a : ChunkAssembler),
      (∀ e ∈ envs, e.chunk_id = asm.chunk_id) →
      asm.addList envs = .ok a →
      a.chunk_id = asm.chunk_id ∧
      ∀ s : Nat,
        ((dictFind a.chunks s).isSome = true ↔
          (dictFind asm.chunks s).isSome = true
            ∨ ∃ e ∈ envs, e.is_parity = false ∧ s = e.sequence)
        ∧ ((dictFind a.parity s).isSome = true ↔
          (dictFind asm.parity s).isSome = true
            ∨ ∃ e ∈ envs, e.is_parity = true ∧ s = e.sequence)
  | [], asm, a, _, hok => by
      simp only [ChunkAssembler.addList, Except.ok.injEq] at hok
      subst hok
      simp
  | e :: rest, asm, a, hid, hok => by
      have he : e.chunk_id = asm.chunk_id := hid e (List.mem_cons_self _ _)
      simp only [ChunkAssembler.addList] at hok
      cases hadd : asm.add e with
      | error err =>
          have hne : ¬(e.chunk_id ≠ asm.chunk_id) := by simp [he]
          simp only [ChunkAssembler.add, if_neg hne] at hadd
          cases hep : e.is_parity <;> rw [hep] at hadd <;> simp at hadd
      | ok a1 =>
          rw [hadd] at hok
          have hne : ¬(e.chunk_id ≠ asm.chunk_id) := by simp [he]
          simp only [ChunkAssembler.add, if_neg hne] at hadd
          cases hep : e.is_parity with
          | true =>
              simp only [hep, eq_self_iff_true, if_true, Except.ok.injEq] at hadd
              have hc1 : a1.chunk_id = asm.chunk_id := by rw [← hadd]
              have hchunks : a1.chunks = asm.chunks := by rw [← hadd]
              have hparity : a1.parity = dictSet asm.parity e.sequence e := by rw [← hadd]
              obtain ⟨hcid, hkeys⟩ := addList_key_partition rest a1 a
                (fun x hx => (hid x (List.mem_cons_of_mem _ hx)).trans hc1.symm) hok
              refine ⟨hcid.trans hc1, fun s => ?_⟩
              obtain ⟨h1, h2⟩ := hkeys s
              rw [hchunks] at h1
              rw [hparity, dictFind_dictSet_isSome] at h2
              constructor
              · rw [h1]
                constructor
                · rintro (h | ⟨x, hx, hxp, hxs⟩)
                  · exact Or.inl h
                  · exact Or.inr ⟨x, List.mem_cons_of_mem _ hx, hxp, hxs⟩
                · rintro (h | ⟨x, hx, hxp, hxs⟩)
                  · exact Or.inl h
                  · rcases List.mem_cons.mp hx with h0 | h0
                    · subst h0; rw [hep] at hxp; simp at hxp
                    · exact Or.inr ⟨x, h0, hxp, hxs⟩
              · rw [h2]
                constructor
                · rintro ((h | h) | ⟨x, hx, hxp, hxs⟩)
                  · exact Or.inl h
                  · exact Or.inr ⟨e, List.mem_cons_self _ _, hep, h⟩
                  · exact Or.inr ⟨x, List.mem_cons_of_mem _ hx, hxp, hxs⟩
                · rintro (h | ⟨x, hx, hxp, hxs⟩)
                  · exact Or.inl (Or.inl h)
                  · rcases List.mem_cons.mp hx with h0 | h0
                    · subst h0; exact Or.inl (Or.inr hxs)
                    · exact Or.inr ⟨x, h0, hxp, hxs⟩
          | false =>
              simp only [hep, Bool.false_eq_true, if_false, Except.ok.injEq] at hadd
              have hc1 : a1.chunk_id = asm.chunk_id := by rw [← hadd]
              have hparity : a1.parity = asm.parity := by rw [← hadd]
              have hchunks : a1.chunks = dictSet asm.chunks e.sequence e := by rw [← hadd]
              obtain ⟨hcid, hkeys⟩ := addList_key_partition rest a1 a
                (fun x hx => (hid x (List.mem_cons_of_mem _ hx)).trans hc1.symm) hok
              refine ⟨hcid.trans hc1, fun s => ?_⟩
              obtain ⟨h1, h2⟩ := hkeys s
              rw [hchunks, dictFind_dictSet_isSome] at h1
              rw [hparity] at h2
              constructor
              · rw [h1]
                constructor
                · rintro ((h | h) | ⟨x, hx, hxp, hxs⟩)
                  · exact Or.inl h
                  · exact Or.inr ⟨e, List.mem_cons_self _ _, hep, h⟩
                  · exact Or.inr ⟨x, List.mem_cons_of_mem _ hx, hxp, hxs⟩
                · rintro (h | ⟨x, hx, hxp, hxs⟩)
                  · exact Or.inl (Or.inl h)
                  · rcases List.mem_cons.mp hx with h0 | h0
                    · subst h0; exact Or.inl (Or.inr hxs)
                    · exact Or.inr ⟨x, h0, hxp, hxs⟩
              · rw [h2]
                constructor
                · rintro (h | ⟨x, hx, hxp, hxs⟩)
                  · exact Or.inl h
                  · exact Or.inr ⟨x, List.mem_cons_of_mem _ hx, hxp, hxs⟩
                · rintro (h | ⟨x, hx, hxp, hxs⟩)
                  · exact Or.inl h
                  · rcases List.mem_cons.mp hx with h0 | h0
                    · subst h0; rw [hep] at hxp; simp at hxp
                    · exact Or.inr ⟨x, h0, hxp, hxs⟩

/-- C5 amended: after any sequence of successful `add` calls with matching
`chunk_id`, the data map's keys are exactly the sequence numbers of the
non-parity envelopes added and the parity map's keys exactly those of the
parity envelopes; the two maps are separate namespaces and *may* share an
integer key. -/
theorem assembler_key_partition (cid : String) (envs : List ChunkEnvelope)
    (a : ChunkAssembler)
    (hid : ∀ e ∈ envs, e.chunk_id = cid)
    (hok : (ChunkAssembler.init cid).addList envs = .ok a) :
    ∀ s : Nat,
      ((dictFind a.chunks s).isSome = true ↔
        ∃ e ∈ envs, e.is_parity = false ∧ s = e.sequence)
      ∧ ((dictFind a.parity s).isSome = true ↔
        ∃ e ∈ envs, e.is_parity = true ∧ s = e.sequence) := by
  have h := addList_key_partition envs (ChunkAssembler.init cid) a
    (by simpa [ChunkAssembler.init] using hid) hok
  intro s
  obtain ⟨h1, h2⟩ := h.2 s
  constructor
  · rw [h1]; simp [ChunkAssembler.init, dictFind]
  · rw [h2]; simp [ChunkAssembler.init, dictFind]

/-- The envelope used by the C5 witness. -/
def envW : ChunkEnvelope := { chunk_id := "w", sequence := 5, payload := [9] }

/-- The assembler state reached by the C5 witness. -/
def asmW : ChunkAssembler :=
  { chunk_id := "w", chunks := [(5, envW)], parity := [], expected := none }

/-- Closed witness for `assembler_key_partition`. -/
theorem assembler_key_partition_witness :
    ((dictFind asmW.chunks 5).isSome = true ↔
      ∃ e ∈ [envW], e.is_parity = false ∧ 5 = e.sequence)
    ∧ ((dictFind asmW.parity 5).isSome = true ↔
      ∃ e ∈ [envW], e.is_parity = true ∧ 5 = e.sequence) :=
  assembler_key_partition "w" [envW] asmW
    (by intro e he; simp at he; subst he; rfl) rfl 5

/-- crypto.py: `int.to_bytes(l, "big")` — big-endian byte rendering. -/
def natToBytesBE : Nat → Nat → List Nat
  | 0, _ => []
  | l + 1, n => natToBytesBE l (n / 256) ++ [n % 256]

/-- Errors of the AES-GCM layer: `ValueError` on a bad key length
(`CRYPTO_BAD_KEY` in the spec taxonomy) and tag rejection
(`CRYPTO_AUTH_FAILED`). -/
inductive CryptoError where
  | badKey
  | authFailed
deriving DecidableEq

/-- A deterministic byte accumulator used by the modelled AEAD core. -/
def byteHash (l : List Nat) : Nat :=
  l.foldl (fun a b => (a * 31 + b) % 256) 7

/-- Keystream byte of the modelled AEAD core. -/
def keystreamByte (key nonce : List Nat) (i : Nat) : Nat :=
  (byteHash key + 2 * byteHash nonce + i) % 256

/-- XOR a byte list against the keystream starting at index `i`. -/
def xorStream (key nonce : List Nat) : Nat → List Nat → List Nat
  | _, [] => []
  | i, b :: rest => (b ^^^ keystreamByte key nonce i) :: xorStream key nonce (i + 1) rest

/-- 16-byte authentication tag of the modelled AEAD core. -/
def gcmTag (key nonce body : List Nat) : List Nat :=
  (List.range 16).map
    (fun j => (byteHash key + 3 * byteHash nonce + 5 * byteHash body + j) % 256)

/-- Modelled from the spec: the `cryptography` package's `AESGCM.encrypt` is
external to the repository.  Per the spec it is "standard AES-GCM": an AEAD
whose ciphertext is the payload-sized body followed by a 16-byte tag, whose
decryption inverts encryption under the same key and nonce, and whose tag
check rejects mismatches.  The AES core itself is replaced by a toy keystream
and tag; the AEAD shape and the round-trip/auth contract are kept. -/
def aesgcmEncrypt (key nonce pt : List Nat) : List Nat :=
  let body := xorStream key nonce 0 pt
  body ++ gcmTag key nonce body

/-- Modelled from the spec: the `cryptography` package's `AESGCM.decrypt`
(see `aesgcmEncrypt`): split off the 16-byte tag, recompute and compare it,
fail with the authentication error on mismatch, else undo the keystream. -/
def aesgcmDecrypt (key nonce ct : List Nat) : Except CryptoError (List Nat) :=
  if ct.length < 16 then .error .authFailed
  else
    let body := ct.take (ct.length - 16)
    let tag := ct.drop (ct.length - 16)
    if tag ≠ gcmTag key nonce body then .error .authFailed
    else .ok (xorStream key nonce 0 body)

/-- crypto.py `AESGCMCipher` state: the validated key and the reduced
96-bit nonce base (`nonce_base & ((1 << 96) - 1)`, written `% 2^96`). -/
structure AESGCMCipher where
  key : List Nat
  nonce_base : Nat

/-- crypto.py `AESGCMCipher.__init__`: keys must be 16, 24 or 32 bytes. -/
def AESGCMCipher.create (key : List Nat) (nb : Nat) : Except CryptoError AESGCMCipher :=
  if key.length = 16 ∨ key.length = 24 ∨ key.length = 32 then
    .ok { key := key, nonce_base := nb % 2 ^ 96 }
  else .error .badKey

/-- crypto.py `AESGCMCipher._nonce_for`: 12 big-endian bytes of
`(nonce_base + sequence) mod 2^96`. -/
def AESGCMCipher.nonceFor (c : AESGCMCipher) (sequence : Nat) : List Nat :=
  natToBytesBE 12 ((c.nonce_base + sequence) % 2 ^ 96)

/-- crypto.py `AESGCMCipher.encrypt` (no AAD on the upload path). -/
def AESGCMCipher.encrypt (c : AESGCMCipher) (payload : List Nat) (sequence : Nat) : List Nat :=
  aesgcmEncrypt c.key (c.nonceFor sequence) payload

/-- crypto.py `AESGCMCipher.decrypt`. -/
def AESGCMCipher.decrypt (c : AESGCMCipher) (payload : List Nat) (sequence : Nat) :
    Except CryptoError (List Nat) :=
  aesgcmDecrypt c.key (c.nonceFor sequence) payload

/-- `xorStream` preserves length. -/
theorem xorStream_length (key nonce : List Nat) :
    ∀ (i : Nat) (l : List Nat), (xorStream key nonce i l).length = l.length
  | _, [] => rfl
  | i, _ :: rest => by simp [xorStream, xorStream_length key nonce (i + 1) rest]

/-- Applying the keystream twice restores the plaintext. -/
theorem xorStream_involutive (key nonce : List Nat) :
    ∀ (i : Nat) (l : List Nat), xorStream key nonce i (xorStream key nonce i l) = l
  | _, [] => rfl
  | i, b :: rest => by
      simp [xorStream, xorStream_involutive key nonce (i + 1) rest,
        Nat.xor_assoc, Nat.xor_self, Nat.xor_zero]

/-- The modelled AEAD satisfies the AES-GCM round-trip contract. -/
theorem aesgcmDecrypt_aesgcmEncrypt (key nonce pt : List Nat) :
    aesgcmDecrypt key nonce (aesgcmEncrypt key nonce pt) = .ok pt := by
  have hb : (xorStream key nonce 0 pt).length = pt.length := xorStream_length key nonce 0 pt
  have htag : (gcmTag key nonce (xorStream key nonce 0 pt)).length = 16 := by
    simp [gcmTag]
  have hlen : (aesgcmEncrypt key nonce pt).length = pt.length + 16 := by
    simp [aesgcmEncrypt, hb, htag]
  have hsub : (aesgcmEncrypt key nonce pt).length - 16 = (xorStream key nonce 0 pt).length := by
    rw [hlen, hb]; omega
  unfold aesgcmDecrypt
  rw [if_neg (by rw [hlen]; omega)]
  rw [hsub]
  unfold aesgcmEncrypt
  rw [List.take_left, List.drop_left]
  rw [if_neg (by simp)]
  rw [xorStream_involutive key nonce 0 pt]

/-- C6: with a 16/24/32-byte key the cipher is created, decrypt inverts
encrypt at every payload and sequence, and both operations use the 12-byte
big-endian nonce `(nonce_base + s) mod 2^96`; any other key length fails
with `CRYPTO_BAD_KEY`. -/
theorem aesgcm_roundtrip (key : List Nat) (nb : Nat) (p : List Nat) (s : Nat) :
    ((key.length = 16 ∨ key.length = 24 ∨ key.length = 32) →
      ∃ c : AESGCMCipher, AESGCMCipher.create key nb = .ok c
        ∧ c.decrypt (c.encrypt p s) s = .ok p
        ∧ c.nonceFor s = natToBytesBE 12 ((nb + s) % 2 ^ 96))
    ∧ (¬(key.length = 16 ∨ key.length = 24 ∨ key.length = 32) →
      AESGCMCipher.create key nb = .error .badKey) := by
  constructor
  · intro hk
    refine ⟨{ key := key, nonce_base := nb % 2 ^ 96 }, ?_, ?_, ?_⟩
    · simp [AESGCMCipher.create, hk]
    · exact aesgcmDecrypt_aesgcmEncrypt _ _ _
    · simp [AESGCMCipher.nonceFor, Nat.mod_add_mod]
  · intro hk
    simp [AESGCMCipher.create, hk]

/-- Closed witness for `aesgcm_roundtrip`. -/
theorem aesgcm_roundtrip_witness :
    (∃ c : AESGCMCipher, AESGCMCipher.create (List.replicate 16 7) 5 = .ok c
      ∧ c.decrypt (c.encrypt [1, 2, 3] 9) 9 = .ok [1, 2, 3]
      ∧ c.nonceFor 9 = natToBytesBE 12 ((5 + 9) % 2 ^ 96))
    ∧ AESGCMCipher.create [1, 2, 3] 0 = .error .badKey :=
  ⟨(aesgcm_roundtrip (List.replicate 16 7) 5 [1, 2, 3] 9).1 (by decide),
   (aesgcm_roundtrip [1, 2, 3] 0 [] 0).2 (by decide)⟩

/-- Errors of fec.py `ReedSolomonCodec.decode`.  The first three model the
`ValueError` raise sites (wrong shard count and all-null map to the spec's
`INPUT_MALFORMED`, excess erasures to `UNRECOVERABLE`); `indexError` models a
Python `IndexError` escaping from `shard[offset]` / `column[shard_idx]`. -/
inductive RSError where
  | wrongShardCount
  | noShards
  | tooManyLosses
  | indexError
deriving DecidableEq

/-- Inner loop of `ReedSolomonCodec.decode` at one offset: build the length-n
symbol column (0 for missing shards) and the list of erasure positions;
`idx` is the running shard index. -/
def buildColumn (offset : Nat) : List (Option (List Nat)) → Nat →
    Except RSError (List Nat × List Nat)
  | [], _ => .ok ([], [])
  | none :: rest, idx =>
      match buildColumn offset rest (idx + 1) with
      | .error e => .error e
      | .ok (col, er) => .ok (0 :: col, idx :: er)
  | some s :: rest, idx =>
      match s.get? offset with
      | none => .error .indexError
      | some v =>
          match buildColumn offset rest (idx + 1) with
          | .error e => .error e
          | .ok (col, er) => .ok (v :: col, er)

/-- Offset loop of `ReedSolomonCodec.decode`: for `cnt` offsets starting at
`offset`, build the column, fail with `tooManyLosses` when the erasures
exceed `n - k`, else apply the external RS column decoder `cdec`
(reedsolo's `RSCodec.decode`, passed as a parameter) and accumulate the
erasure count into `corrected`. -/
def decodeColumns (n k : Nat) (cdec : List Nat → List Nat → List Nat)
    (shards : List (Option (List Nat))) : Nat → Nat →
    Except RSError (List (List Nat) × Nat)
  | _, 0 => .ok ([], 0)
  | offset, cnt + 1 =>
      match buildColumn offset shards 0 with
      | .error e => .error e
      | .ok (col, er) =>
          if er.length > n - k then .error .tooManyLosses
          else
            match decodeColumns n k cdec shards (offset + 1) cnt with
            | .error e => .error e
            | .ok (cols, corr) => .ok (cdec col er :: cols, corr + er.length)

/-- Rebuild step of `ReedSolomonCodec.decode`: take the first `k` symbols of
every decoded column, in column order (`column[shard_idx]` raises IndexError
when the column is shorter than `k`). -/
def rebuildData (k : Nat) : List (List Nat) → Except RSError (List Nat)
  | [] => .ok []
  | col :: rest =>
      if k ≤ col.length then
        match rebuildData k rest with
        | .error e => .error e
        | .ok d => .ok (col.take k ++ d)
      else .error .indexError

/-- Python `bytes.rstrip(b"\x00")`. -/
def rstripZeros (l : List Nat) : List Nat :=
  (l.reverse.dropWhile (fun b => b == 0)).reverse

/-- fec.py `ReedSolomonCodec.decode` with parameters `n`, `k` (from
`ReedSolomonConfig`) and the external reedsolo column decoder `cdec`.
Returns the decoded bytes and the `corrected` metric. -/
def rsDecode (n k : Nat) (cdec : List Nat → List Nat → List Nat)
    (shards : List (Option (List Nat))) (expected_len : Option Nat) :
    Except RSError (List Nat × Nat) :=
  if shards.length ≠ n then .error .wrongShardCount
  else
    match shards.filterMap id with
    | [] => .error .noShards
    | p0 :: _ =>
        match decodeColumns n k cdec shards 0 p0.length with
        | .error e => .error e
        | .ok (cols, corrected) =>
            match rebuildData k cols with
            | .error e => .error e
            | .ok data =>
                let result := match expected_len with
                  | some el => data.take el
                  | none => rstripZeros data
                .ok (result, corrected)

/-- C4 counterexample: `n = 3, k = 2`, shards `[some [0,0], some [], none]`
have two non-null shards of different lengths; decode fails with a raw
index error (Python `IndexError` from `shard[offset]`), not with either of
the `INPUT_MALFORMED` (`ValueError`) raise sites — the claimed shard-length
check does not exist in the code. -/
theorem rs_decode_mismatched_length_counterexample :
    rsDecode 3 2 (fun c _ => c) [some [0, 0], some [], none] none = .error .indexError
    ∧ RSError.indexError ≠ RSError.wrongShardCount
    ∧ RSError.indexError ≠ RSError.noShards
    ∧ RSError.indexError ≠ RSError.tooManyLosses :=
  ⟨rfl, by decide, by decide, by decide⟩

/-- A list of options whose members are all `none` filter-maps to `[]`. -/
theorem filterMap_id_eq_nil {α : Type} :
    ∀ l : List (Option α), (∀ s ∈ l, s = none) → l.filterMap id = []
  | [], _ => rfl
  | none :: rest, h => by
      rw [List.filterMap_cons]
      exact filterMap_id_eq_nil rest (fun s hs => h s (List.mem_cons_of_mem _ hs))
  | some x :: rest, h => by
      have := h (some x) (List.mem_cons_self _ _)
      simp at this

/-- Members of `filterMap id` come from `some` members of the list. -/
theorem mem_of_mem_filterMap_id {α : Type} (l : List (Option α)) (x : α)
    (h : x ∈ l.filterMap id) : some x ∈ l := by
  rw [List.mem_filterMap] at h
  obtain ⟨a, ha, hax⟩ := h
  cases a with
  | none => simp at hax
  | some y => simp at hax; subst hax; exact ha

/-- When every present shard reaches past `offset`, the column build succeeds
and records exactly the missing positions as erasures. -/
theorem buildColumn_ok (offset : Nat) :
    ∀ (shards : List (Option (List Nat))) (idx : Nat),
      (∀ s : List Nat, some s ∈ shards → offset < s.length) →
      ∃ col er, buildColumn offset shards idx = .ok (col, er)
        ∧ er.length = (shards.filter (fun s => s.isNone)).length
  | [], _, _ => ⟨[], [], rfl, rfl⟩
  | none :: rest, idx, h => by
      obtain ⟨col, er, hbc, hlen⟩ := buildColumn_ok offset rest (idx + 1)
        (fun s hs => h s (List.mem_cons_of_mem _ hs))
      refine ⟨0 :: col, idx :: er, ?_, ?_⟩
      · simp only [buildColumn, hbc]
      · simp [hlen, List.filter]
  | some s :: rest, idx, h => by
      have hs : offset < s.length := h s (List.mem_cons_self _ _)
      obtain ⟨v, hv⟩ : ∃ v, s.get? offset = some v := by
        cases hg : s.get? offset with
        | none => rw [List.get?_eq_none] at hg; omega
        | some v => exact ⟨v, rfl⟩
      obtain ⟨col, er, hbc, hlen⟩ := buildColumn_ok offset rest (idx + 1)
        (fun t ht => h t (List.mem_cons_of_mem _ ht))
      refine ⟨v :: col, er, ?_, ?_⟩
      · simp only [buildColumn, hv, hbc]
      · simp [hlen, List.filter]

/-- C4 amended: `decode` fails with the wrong-count `ValueError`
(`INPUT_MALFORMED`) when the shard list length differs from `n`, with the
no-shards `ValueError` (`INPUT_MALFORMED`) when every shard is null, and
with `UNRECOVERABLE` when the null shards exceed `n − k`, provided the
non-null shards share a common positive length `L`.  (The claimed
different-length `INPUT_MALFORMED` check does not exist: a shorter non-null
shard raises an uncaught IndexError and a longer one is silently truncated;
and with zero-length shards the offset loop never runs, so even the excess-
erasure check is skipped.) -/
theorem rs_decode_error_paths (n k : Nat) (cdec : List Nat → List Nat → List Nat)
    (shards : List (Option (List Nat))) (el : Option Nat) :
    (shards.length ≠ n → rsDecode n k cdec shards el = .error .wrongShardCount)
    ∧ (shards.length = n → (∀ s ∈ shards, s = none) →
        rsDecode n k cdec shards el = .error .noShards)
    ∧ ∀ L : Nat, 0 < L →
        (∀ s : List Nat, some s ∈ shards → s.length = L) →
        shards.length = n →
        (shards.filter (fun s => s.isNone)).length > n - k →
        (∃ t, some t ∈ shards) →
        rsDecode n k cdec shards el = .error .tooManyLosses := by
  refine ⟨?_, ?_, ?_⟩
  · intro h
    simp [rsDecode, h]
  · intro hn hall
    unfold rsDecode
    rw [if_neg (by simp [hn])]
    rw [filterMap_id_eq_nil shards hall]
  · intro L hL hlen hn hcount ⟨t, ht⟩
    unfold rsDecode
    rw [if_neg (by simp [hn])]
    have hne : shards.filterMap id ≠ [] := by
      intro hnil
      have hmem : t ∈ shards.filterMap id := List.mem_filterMap.mpr ⟨some t, ht, rfl⟩
      rw [hnil] at hmem
      simp at hmem
    cases hfm : shards.filterMap id with
    | nil => exact absurd hfm hne
    | cons p0 ps =>
        have hp0 : some p0 ∈ shards := by
          apply mem_of_mem_filterMap_id
          rw [hfm]
          exact List.mem_cons_self _ _
        have hp0len : p0.length = L := hlen p0 hp0
        obtain ⟨col, er, hbc, herlen⟩ := buildColumn_ok 0 shards 0
          (fun s hs => by rw [hlen s hs]; exact hL)
        have hergt : er.length > n - k := by omega
        obtain ⟨m, hm⟩ : ∃ m, p0.length = m + 1 := ⟨L - 1, by omega⟩
        have hdec : decodeColumns n k cdec shards 0 p0.length = .error .tooManyLosses := by
          rw [hm]
          simp only [decodeColumns]
          rw [hbc]
          simp only [if_pos hergt]
        simp only [hdec]

/-- Closed witness for `rs_decode_error_paths`. -/
theorem rs_decode_error_paths_witness :
    rsDecode 2 1 (fun c _ => c) [some [1]] none = .error .wrongShardCount
    ∧ rsDecode 2 1 (fun c _ => c) [none, none] none = .error .noShards
    ∧ rsDecode 3 2 (fun c _ => c) [some [5], none, none] none = .error .tooManyLosses :=
  ⟨(rs_decode_error_paths 2 1 (fun c _ => c) [some [1]] none).1 (by decide),
   (rs_decode_error_paths 2 1 (fun c _ => c) [none, none] none).2.1 (by decide) (by decide),
   (rs_decode_error_paths 3 2 (fun c _ => c) [some [5], none, none] none).2.2 1 (by decide)
     (fun s hs => by simp at hs; subst hs; rfl) (by decide) (by decide) ⟨[5], by decide⟩⟩

/-- noise.py `NoiseConfig` (probabilities are only compared with draws, so
they are modelled as rationals). -/
structure NoiseConfig where
  loss : ℚ
  ber : ℚ
  duplicate : ℚ
  reorder : ℚ

/-- Statistics dictionary of noise.py `NoiseEngine.apply`. -/
structure NoiseStats where
  loss : Nat
  bit_flips : Nat
  duplicate : Nat
  reordered : Nat
  input : Nat
  output : Nat
deriving DecidableEq

/-- Inner bit loop of `NoiseEngine.apply`: for each bit index, draw `u i` and
flip the bit when `u i < ber`; returns the byte, the flip count and the next
draw index. -/
def mutateByteGo (u : Nat → ℚ) (ber : ℚ) : List Nat → Nat → Nat → Nat →
    Nat × Nat × Nat
  | [], byte, flips, i => (byte, flips, i)
  | bit :: restBits, byte, flips, i =>
      if u i < ber then mutateByteGo u ber restBits (byte ^^^ (1 <<< bit)) (flips + 1) (i + 1)
      else mutateByteGo u ber restBits byte flips (i + 1)

/-- Per-byte mutation: bits 0..7 in order. -/
def mutateByte (u : Nat → ℚ) (ber : ℚ) (byte : Nat) (i : Nat) : Nat × Nat × Nat :=
  mutateByteGo u ber (List.range 8) byte 0 i

/-- Payload mutation: bytes in order, threading the draw index. -/
def mutatePayload (u : Nat → ℚ) (ber : ℚ) : List Nat → Nat → List Nat × Nat × Nat
  | [], i => ([], 0, i)
  | b :: rest, i =>
      let r1 := mutateByte u ber b i
      let r2 := mutatePayload u ber rest r1.2.2
      (r1.1 :: r2.1, r1.2.1 + r2.2.1, r2.2.2)

/-- Main loop of noise.py `NoiseEngine.apply` over the input envelopes:
draw `u₁` (drop on `u₁ < loss`), mutate the payload bit-by-bit, emit the
fresh copy, draw `u₂` (emit it again on `u₂ < duplicate`).  The draw source
`u` models the seeded `random.Random` stream; `i` is the next draw index.
`output` and `reordered` are filled in afterwards by `noiseApply`. -/
def noiseApplyGo (u : Nat → ℚ) (cfg : NoiseConfig) :
    List ChunkEnvelope → Nat → List ChunkEnvelope × NoiseStats × Nat
  | [], i => ([], ⟨0, 0, 0, 0, 0, 0⟩, i)
  | env :: rest, i =>
      if u i < cfg.loss then
        let r := noiseApplyGo u cfg rest (i + 1)
        (r.1, { r.2.1 with loss := r.2.1.loss + 1, input := r.2.1.input + 1 }, r.2.2)
      else
        let pm := mutatePayload u cfg.ber env.payload (i + 1)
        let mutated : ChunkEnvelope :=
          { chunk_id := env.chunk_id, sequence := env.sequence, payload := pm.1,
            is_parity := env.is_parity, fec_index := env.fec_index,
            total_chunks := env.total_chunks, metadata := env.metadata }
        if u pm.2.2 < cfg.duplicate then
          let r := noiseApplyGo u cfg rest (pm.2.2 + 1)
          (mutated :: mutated :: r.1,
           { r.2.1 with input := r.2.1.input + 1, bit_flips := r.2.1.bit_flips + pm.2.1,
                        duplicate := r.2.1.duplicate + 1 }, r.2.2)
        else
          let r := noiseApplyGo u cfg rest (pm.2.2 + 1)
          (mutated :: r.1,
           { r.2.1 with input := r.2.1.input + 1,
                        bit_flips := r.2.1.bit_flips + pm.2.1 }, r.2.2)

/-- noise.py `NoiseEngine.apply`: run the loop, then — only when the output
is non-empty — draw `u₃` and, when `u₃ < reorder`, shuffle the list
(`random.shuffle`, passed as the parameter `shuffle`); finally set
`output = len(processed)`. -/
def noiseApply (u : Nat → ℚ) (cfg : NoiseConfig)
    (shuffle : List ChunkEnvelope → List ChunkEnvelope)
    (envs : List ChunkEnvelope) (i0 : Nat) :
    List ChunkEnvelope × NoiseStats × Nat :=
  let r := noiseApplyGo u cfg envs i0
  if r.1.isEmpty then
    (r.1, { r.2.1 with output := r.1.length }, r.2.2)
  else
    if u r.2.2 < cfg.reorder then
      let shuffled := shuffle r.1
      (shuffled, { r.2.1 with reordered := 1, output := shuffled.length }, r.2.2 + 1)
    else
      (r.1, { r.2.1 with output := r.1.length }, r.2.2 + 1)

/-- The identity of an envelope apart from its payload. -/
def envKey (e : ChunkEnvelope) :
    String × Nat × Bool × Option Nat × Option Nat × List (String × String) :=
  (e.chunk_id, e.sequence, e.is_parity, e.fec_index, e.total_chunks, e.metadata)

/-- Loop-level counting invariant: losses never exceed inputs and the emitted
count balances inputs, losses and duplicates. -/
theorem noiseApplyGo_counts (u : Nat → ℚ) (cfg : NoiseConfig) :
    ∀ (envs : List ChunkEnvelope) (i : Nat),
      (noiseApplyGo u cfg envs i).2.1.loss ≤ (noiseApplyGo u cfg envs i).2.1.input
      ∧ (noiseApplyGo u cfg envs i).1.length + (noiseApplyGo u cfg envs i).2.1.loss
          = (noiseApplyGo u cfg envs i).2.1.input + (noiseApplyGo u cfg envs i).2.1.duplicate
  | [], i => by simp [noiseApplyGo]
  | env :: rest, i => by
      simp only [noiseApplyGo]
      by_cases h1 : u i < cfg.loss
      · have ih := noiseApplyGo_counts u cfg rest (i + 1)
        simp only [if_pos h1]
        simp only [List.length_cons] at ih ⊢
        omega
      · simp only [if_neg h1]
        by_cases h2 : u (mutatePayload u cfg.ber env.payload (i + 1)).2.2 < cfg.duplicate
        · have ih := noiseApplyGo_counts u cfg rest
            ((mutatePayload u cfg.ber env.payload (i + 1)).2.2 + 1)
          simp only [if_pos h2, List.length_cons]
          omega
        · have ih := noiseApplyGo_counts u cfg rest
            ((mutatePayload u cfg.ber env.payload (i + 1)).2.2 + 1)
          simp only [if_neg h2, List.length_cons]
          omega

/-- With `loss = 0` and `duplicate = 0` and non-negative draws, the loop
emits exactly one envelope per input, in order, with the identity fields
preserved. -/
theorem noiseApplyGo_ordered (u : Nat → ℚ) (cfg : NoiseConfig)
    (hpos : ∀ i, 0 ≤ u i) (hloss : cfg.loss = 0) (hdup : cfg.duplicate = 0) :
    ∀ (envs : List ChunkEnvelope) (i : Nat),
      (noiseApplyGo u cfg envs i).1.map envKey = envs.map envKey
  | [], i => by simp [noiseApplyGo]
  | env :: rest, i => by
      simp only [noiseApplyGo]
      rw [if_neg (by rw [hloss]; exact not_lt.mpr (hpos i))]
      rw [if_neg (by rw [hdup]; exact not_lt.mpr (hpos _))]
      simp only [List.map_cons,
        noiseApplyGo_ordered u cfg hpos hloss hdup rest
          ((mutatePayload u cfg.ber env.payload (i + 1)).2.2 + 1)]
      rfl

/-- C9: the stats of `NoiseEngine.apply` always satisfy
`output = input − loss + duplicate` (with `loss ≤ input`); and when
`loss = duplicate = reorder = 0`, the output carries exactly one envelope
per input envelope, in the input order (payloads may still be bit-flipped
when `ber > 0`). -/
theorem noise_apply_invariants (u : Nat → ℚ) (cfg : NoiseConfig)
    (shuffle : List ChunkEnvelope → List ChunkEnvelope)
    (envs : List ChunkEnvelope) (i0 : Nat)
    (hshuffle : ∀ l, (shuffle l).length = l.length)
    (hpos : ∀ i, 0 ≤ u i) :
    ((noiseApply u cfg shuffle envs i0).2.1.loss ≤ (noiseApply u cfg shuffle envs i0).2.1.input
      ∧ (noiseApply u cfg shuffle envs i0).2.1.output
          = (noiseApply u cfg shuffle envs i0).2.1.input
              - (noiseApply u cfg shuffle envs i0).2.1.loss
              + (noiseApply u cfg shuffle envs i0).2.1.duplicate)
    ∧ (cfg.loss = 0 → cfg.duplicate = 0 → cfg.reorder = 0 →
        (noiseApply u cfg shuffle envs i0).1.map envKey = envs.map envKey) := by
  constructor
  · have hc := noiseApplyGo_counts u cfg envs i0
    unfold noiseApply
    by_cases he : (noiseApplyGo u cfg envs i0).1.isEmpty
    · simp only [if_pos he]
      omega
    · simp only [if_neg he]
      by_cases hr : u (noiseApplyGo u cfg envs i0).2.2 < cfg.reorder
      · simp only [if_pos hr, hshuffle]
        omega
      · simp only [if_neg hr]
        omega
  · intro hloss hdup hreorder
    have hord := noiseApplyGo_ordered u cfg hpos hloss hdup envs i0
    unfold noiseApply
    by_cases he : (noiseApplyGo u cfg envs i0).1.isEmpty
    · simpa only [if_pos he] using hord
    · rw [if_neg he, if_neg (by rw [hreorder]; exact not_lt.mpr (hpos _))]
      exact hord

/-- Closed witness for `noise_apply_invariants`. -/
theorem noise_apply_invariants_witness :
    (((noiseApply (fun _ => 0) ⟨0, 0, 0, 0⟩ id [envW] 0).2.1.loss
        ≤ (noiseApply (fun _ => 0) ⟨0, 0, 0, 0⟩ id [envW] 0).2.1.input)
      ∧ (noiseApply (fun _ => 0) ⟨0, 0, 0, 0⟩ id [envW] 0).2.1.output
          = (noiseApply (fun _ => 0) ⟨0, 0, 0, 0⟩ id [envW] 0).2.1.input
              - (noiseApply (fun _ => 0) ⟨0, 0, 0, 0⟩ id [envW] 0).2.1.loss
              + (noiseApply (fun _ => 0) ⟨0, 0, 0, 0⟩ id [envW] 0).2.1.duplicate)
    ∧ ((0 : ℚ) = 0 → (0 : ℚ) = 0 → (0 : ℚ) = 0 →
        (noiseApply (fun _ => 0) ⟨0, 0, 0, 0⟩ id [envW] 0).1.map envKey = [envW].map envKey) :=
  noise_apply_invariants (fun _ => 0) ⟨0, 0, 0, 0⟩ id [envW] 0
    (fun l => rfl) (fun i => le_refl 0)

/-- models.py / routes: the negotiated FEC mode. -/
inductive FecMode where
  | off
  | hamming
  | rs
deriving DecidableEq

/-- The `fec` part of `PipelineSettings`. -/
structure PipelineFec where
  mode : FecMode
  n : Nat
  k : Nat
deriving DecidableEq

/-- storage.py `UploadRecord`, restricted to the fields `finish` touches.
`meta_original_size` is `meta["original_size"]` already put through Python's
`int()` (a missing key or a parse failure is `none`); `stage_metrics` keeps
only the ordered stage names. -/
structure UploadRecord where
  file_id : String
  filename : String
  fec : PipelineFec
  assembler : ChunkAssembler
  meta_original_size : Option Int
  stage_metrics : List String
  final_path : Option String

/-- Values of a Python dict in insertion order. -/
def dictValues {α : Type} (m : List (Nat × α)) : List α :=
  m.map Prod.snd

/-- Stable insertion into a list sorted by `sequence` (equal keys keep the
earlier element first, as Python's stable `sorted` does). -/
def insertBySeq (e : ChunkEnvelope) : List ChunkEnvelope → List ChunkEnvelope
  | [] => [e]
  | x :: xs => if x.sequence ≤ e.sequence then x :: insertBySeq e xs else e :: x :: xs

/-- `sorted(envelopes, key=lambda env: env.sequence)`. -/
def sortBySeq (l : List ChunkEnvelope) : List ChunkEnvelope :=
  l.foldl (fun acc e => insertBySeq e acc) []

/-- routes_upload.py `_collect_shards`: for RS, fill `n` optional slots from
data then parity envelopes at `fec_index` (falling back to `sequence`),
last write wins (`List.set` is a no-op outside `0..n-1`, like the source's
bounds guard); otherwise concatenate the data envelopes by sequence into a
single slot, or return `[]` when there are none. -/
def collectShards (record : UploadRecord) : List (Option (List Nat)) :=
  match record.fec.mode with
  | FecMode.rs =>
      let slots : List (Option (List Nat)) := List.replicate record.fec.n none
      let slots1 := (dictValues record.assembler.chunks).foldl
        (fun acc env => acc.set (env.fec_index.getD env.sequence) (some env.payload)) slots
      (dictValues record.assembler.parity).foldl
        (fun acc env => acc.set (env.fec_index.getD env.sequence) (some env.payload)) slots1
  | _ =>
      let ordered := sortBySeq (dictValues record.assembler.chunks)
      if ordered.isEmpty then []
      else [some ((ordered.map (fun e => e.payload)).join)]

/-- storage.py `Storage._sanitize_filename`: keep `[A-Za-z0-9._-]`, replace
the rest with an underscore. -/
def sanitizeChar (c : Char) : Char :=
  if c.isAlphanum ∨ c = '.' ∨ c = '_' ∨ c = '-' then c else '_'

/-- The suffix after the last occurrence of `sep`. -/
def afterLastSep (sep : Char) (l : List Char) : List Char :=
  (l.reverse.takeWhile (fun c => c != sep)).reverse

/-- storage.py `Storage._sanitize_filename`: strip POSIX and Windows path
components (`ntpath.basename` / `posixpath.basename` / `Path(...).name`),
substitute `"file"` for empty, `"."` and `".."`, then replace every
character outside `[A-Za-z0-9._-]` with `_`. -/
def sanitizeFilename (filename : String) : String :=
  let base := afterLastSep '/' (afterLastSep '\\' filename.toList)
  let base1 := if base = [] ∨ base = ['.'] ∨ base = ['.', '.'] then "file".toList else base
  let cleaned := base1.map sanitizeChar
  if cleaned.isEmpty then "file" else String.mk cleaned

/-- storage.py `Storage.complete_upload`: write the bytes under
`final/<file_id>_<safe_name>`, set `final_path` (the only assignment to it
anywhere) and record the `final` stage metrics. -/
def completeUpload (record : UploadRecord) (data : List Nat) : UploadRecord × String :=
  let path := record.file_id ++ "_" ++ sanitizeFilename record.filename
  ({ record with final_path := some path,
                 stage_metrics := record.stage_metrics ++ ["final"] }, path)

/-- Failure exits of routes_upload.py `finish_upload` (HTTP 400s and the
uncaught decompress error; the `NOT_FOUND` lookup happens before the
pipeline and is out of scope here). -/
inductive FinishError where
  | emptyShards
  | fecFailed
  | decryptFailed
  | decompressFailed
  | sizeMismatch
deriving DecidableEq

/-- routes_upload.py `finish_upload` after the record lookup: collect shards
(400 when empty), FEC-decode (`fec_decode_bytes`, passed as `fecF`;
ValueError → 400), decrypt (`_decrypt_payload`, passed as `decryptF`;
any exception → 400), decompress (`_decompress_payload`, passed as
`decompressF`; its error propagates uncaught but still aborts the call),
compare `meta["original_size"]` with the decompressed length (mismatch →
400), and only then persist via `completeUpload`.  Stage metrics are
recorded after each successful stage.  Returns the outcome together with
the record as mutated so far. -/
def finish (fecF : List (Option (List Nat)) → Except Unit (List Nat))
    (decryptF : List Nat → Except Unit (List Nat))
    (decompressF : List Nat → Except Unit (List Nat))
    (record : UploadRecord) : Except FinishError String × UploadRecord :=
  let shards := collectShards record
  if shards.isEmpty then (.error .emptyShards, record)
  else
    match fecF shards with
    | .error _ => (.error .fecFailed, record)
    | .ok data =>
        let r1 := { record with stage_metrics := record.stage_metrics ++ ["fec"] }
        match decryptF data with
        | .error _ => (.error .decryptFailed, r1)
        | .ok decrypted =>
            let r2 := { r1 with stage_metrics := r1.stage_metrics ++ ["encryption"] }
            match decompressF decrypted with
            | .error _ => (.error .decompressFailed, r2)
            | .ok decompressed =>
                let r3 := { r2 with stage_metrics := r2.stage_metrics ++ ["compression"] }
                if r3.meta_original_size.any
                    (fun esz => esz != (decompressed.length : Int)) then
                  (.error .sizeMismatch, r3)
                else
                  let rp := completeUpload r3 decompressed
                  (.ok rp.2, rp.1)

/-- C8: when `finish` fails at any stage the record's `final_path` stays
unset; when it succeeds, `final_path` is set to the persisted path and every
stage — shard collection, FEC decode, decrypt, decompress and the
`original_size` check — succeeded before the persist step ran. -/
theorem finish_final_path
    (fecF : List (Option (List Nat)) → Except Unit (List Nat))
    (decryptF : List Nat → Except Unit (List Nat))
    (decompressF : List Nat → Except Unit (List Nat))
    (record : UploadRecord) (h : record.final_path = none) :
    (∀ (e : FinishError) (r2 : UploadRecord),
        finish fecF decryptF decompressF record = (.error e, r2) → r2.final_path = none)
    ∧ (∀ (p : String) (r2 : UploadRecord),
        finish fecF decryptF decompressF record = (.ok p, r2) →
        r2.final_path = some p
        ∧ ¬(collectShards record).isEmpty = true
        ∧ ∃ d1 d2 d3,
            fecF (collectShards record) = .ok d1
            ∧ decryptF d1 = .ok d2
            ∧ decompressF d2 = .ok d3
            ∧ ∀ esz : Int, record.meta_original_size = some esz
                → esz = (d3.length : Int)) := by
  unfold finish
  constructor
  · intro e r2 heq
    by_cases hsh : (collectShards record).isEmpty = true
    · rw [if_pos hsh] at heq
      cases heq
      exact h
    · rw [if_neg hsh] at heq
      cases hfec : fecF (collectShards record) with
      | error u => simp only [hfec] at heq; cases heq; exact h
      | ok data =>
          simp only [hfec] at heq
          cases hdec : decryptF data with
          | error u => simp only [hdec] at heq; cases heq; exact h
          | ok decrypted =>
              simp only [hdec] at heq
              cases hcomp : decompressF decrypted with
              | error u => simp only [hcomp] at heq; cases heq; exact h
              | ok decompressed =>
                  simp only [hcomp] at heq
                  by_cases hsz : record.meta_original_size.any
                      (fun esz => esz != (decompressed.length : Int)) = true
                  · rw [if_pos hsz] at heq
                    cases heq
                    exact h
                  · rw [if_neg hsz] at heq
                    cases heq
  · intro p r2 heq
    by_cases hsh : (collectShards record).isEmpty = true
    · rw [if_pos hsh] at heq
      cases heq
    · rw [if_neg hsh] at heq
      cases hfec : fecF (collectShards record) with
      | error u => simp only [hfec] at heq; cases heq
      | ok data =>
          simp only [hfec] at heq
          cases hdec : decryptF data with
          | error u => simp only [hdec] at heq; cases heq
          | ok decrypted =>
              simp only [hdec] at heq
              cases hcomp : decompressF decrypted with
              | error u => simp only [hcomp] at heq; cases heq
              | ok decompressed =>
                  simp only [hcomp] at heq
                  by_cases hsz : record.meta_original_size.any
                      (fun esz => esz != (decompressed.length : Int)) = true
                  · rw [if_pos hsz] at heq
                    cases heq
                  · rw [if_neg hsz] at heq
                    simp only [Prod.mk.injEq, Except.ok.injEq] at heq
                    obtain ⟨hp, hr⟩ := heq
                    subst hp
                    subst hr
                    refine ⟨rfl, hsh, data, decrypted, decompressed, rfl, hdec, hcomp, ?_⟩
                    intro esz hesz
                    rw [hesz] at hsz
                    simpa using hsz

/-- The record used by the C8 witness (mode `off`, one stored data chunk,
declared original size 1, no `final_path`). -/
def recW : UploadRecord :=
  { file_id := "f1", filename := "a.png", fec := { mode := FecMode.off, n := 0, k := 0 },
    assembler := asmW, meta_original_size := some 1, stage_metrics := [],
    final_path := none }

/-- Closed witness for `finish_final_path`. -/
theorem finish_final_path_witness :
    (∀ (e : FinishError) (r2 : UploadRecord),
        finish (fun _ => .ok [1]) (fun d => .ok d) (fun d => .ok d) recW = (.error e, r2)
          → r2.final_path = none)
    ∧ (∀ (p : String) (r2 : UploadRecord),
        finish (fun _ => .ok [1]) (fun d => .ok d) (fun d => .ok d) recW = (.ok p, r2) →
        r2.final_path = some p
        ∧ ¬(collectShards recW).isEmpty = true
        ∧ ∃ d1 d2 d3,
            (fun _ => (.ok [1] : Except Unit (List Nat))) (collectShards recW) = .ok d1
            ∧ (fun d => (.ok d : Except Unit (List Nat))) d1 = .ok d2
            ∧ (fun d => (.ok d : Except Unit (List Nat))) d2 = .ok d3
            ∧ ∀ esz : Int, recW.meta_original_size = some esz
                → esz = (d3.length : Int)) :=
  finish_final_path (fun _ => .ok [1]) (fun d => .ok d) (fun d => .ok d) recW rfl

end ImageLab
